import Mathlib

/-!
Verification of the AI voice-notes application core (`src/App.tsx`).

The development shallowly embeds in Lean:
* the dictionary substitution engine (`processRecording`, App.tsx:160-165):
  the JavaScript global regex replace `text.replace(new RegExp("\\b" + word + "\\b", "gi"), replacement)`,
  modelled as a left-to-right scanner over lists of characters;
* the recording pipeline `processRecording` (App.tsx:119-205) with its two
  emptiness guards, base64 conversion, and the three awaited service calls;
* the recorder handlers `startRecording` / `ondataavailable` (App.tsx:80-107),
  including the React closure semantics of the `recordingStart` state variable;
* the store handlers `addDictionaryEntry`, `deleteDictionaryEntry`, `deleteNote`
  (App.tsx:212-253).

Strings are modelled as `List Char`; blobs as lists of bytes (`List Nat`).
Case-insensitive matching (`i` flag) is `Char.toLower` comparison, which is
exact for the basic-latin range both here and in the source's data.
-/

set_option maxRecDepth 100000

namespace VoiceNotes

/-- JavaScript regex word character: `[A-Za-z0-9_]`, the `\w` / `\b` class of a
regex without the `u` flag (ASCII letters, digits, underscore). -/
def isWordChar (c : Char) : Bool := c.isAlphanum || c = '_'

/-- A `\b` word boundary holds between two positions iff exactly one side is a
word character; string edges count as non-word. -/
def boundary (a b : Bool) : Bool := a != b

/-- One element of a compiled regex pattern: a literal character, or `.`
(matches any character except a line terminator). -/
inductive RChar
  | lit (c : Char)
  | dot
deriving DecidableEq

/-- JavaScript line terminators, which `.` does not match. -/
def lineTerm (c : Char) : Bool := c = '\n' || c = '\r' || c = '\u2028' || c = '\u2029'

/-- Match of one pattern element against one character, case-insensitive
(the regex is built with the `i` flag). -/
def rmatch : RChar → Char → Bool
  | .lit a, c => a.toLower = c.toLower
  | .dot, c => !lineTerm c

/-- Word-ness of the first character of a string (string end counts as non-word). -/
def headW : List Char → Bool
  | [] => false
  | c :: _ => isWordChar c

/-- Try to match the pattern at the head of `s`. `lastW` is the word-ness of the
character just before the current position. On success, returns the word-ness of
the last consumed character (or `lastW` if the pattern is empty) and the
remaining suffix. -/
def matchPat : List RChar → Bool → List Char → Option (Bool × List Char)
  | [], w, s => some (w, s)
  | _ :: _, _, [] => none
  | p :: ps, _, c :: rest => if rmatch p c then matchPat ps (isWordChar c) rest else none

/-- One pass of the JavaScript global replace `s.replace(/\b…\b/gi, r)`: scan left
to right; at each position check the opening `\b`, the pattern, and the closing
`\b`; on a match emit `r` and continue after the matched characters (`skip`
counts original characters still to pass over after a match); an empty pattern
matches the empty string at a boundary and the scan then advances one character,
as the JS global scan does. -/
def scan (pat : List RChar) (r : List Char) : Bool → Nat → List Char → List Char
  | _, _ + 1, [] => []
  | _, skip + 1, c :: rest => scan pat r (isWordChar c) skip rest
  | prevW, 0, [] => if pat.isEmpty && boundary prevW false then r else []
  | prevW, 0, c :: rest =>
    if boundary prevW (isWordChar c) then
      match matchPat pat prevW (c :: rest) with
      | some (lastW, rest') =>
        if boundary lastW (headW rest') then
          if pat.isEmpty then r ++ c :: scan pat r (isWordChar c) 0 rest
          else r ++ scan pat r (isWordChar c) (pat.length - 1) rest
        else c :: scan pat r (isWordChar c) 0 rest
      | none => c :: scan pat r (isWordChar c) 0 rest
    else c :: scan pat r (isWordChar c) 0 rest

/-- Characters with special meaning in a JavaScript regex pattern. A user word
containing one of these builds a regex the model does not cover (`.` is covered:
it compiles to the any-character matcher). -/
def jsMeta (c : Char) : Bool :=
  c = '\\' || c = '^' || c = '$' || c = '|' || c = '?' || c = '*' || c = '+' ||
  c = '(' || c = ')' || c = '[' || c = ']' || c = '\x7b' || c = '\x7d'

/-- Compilation of `new RegExp("\\b" + word + "\\b", "gi")`: the body between the
two `\b` anchors. `none` when the word contains a regex metacharacter whose
effect the model does not cover. -/
def compileKey (word : List Char) : Option (List RChar) :=
  if word.any jsMeta then none
  else some (word.map fun c => if c = '.' then RChar.dot else RChar.lit c)

/-- A dictionary entry (`interface DictionaryEntry`, App.tsx:24-27). -/
structure DictionaryEntry where
  word : List Char
  replacement : List Char
deriving DecidableEq

/-- `processedText.replace(new RegExp("\\b" + entry.word + "\\b", "gi"), entry.replacement)`
(App.tsx:163-164). `none` when the entry is outside the modelled fragment:
a regex metacharacter in the key, or `$` in the replacement (which the JS
replace would expand specially). -/
def applyEntry (text : List Char) (e : DictionaryEntry) : Option (List Char) :=
  match compileKey e.word with
  | none => none
  | some pat =>
    if e.replacement.contains '$' then none
    else some (scan pat e.replacement false 0 text)

/-- `dictionary.forEach(entry => { processedText = processedText.replace(...) })`
(App.tsx:160-165): the entries applied in list order. -/
def applyDict (dict : List DictionaryEntry) (text : List Char) : Option (List Char) :=
  dict.foldlM applyEntry text

/-- Modelled from the spec: the substitution contract of section 4.4 read
literally — replace every whole-word, case-insensitive occurrence of the key
itself, each key character matched as a literal with no regex interpretation.
Used to compare the code's regex-built substitution against the spec's words. -/
def specApplyEntry (text : List Char) (e : DictionaryEntry) : List Char :=
  scan (e.word.map RChar.lit) e.replacement false 0 text

/-- Case-insensitive equality of strings, as the `i` flag induces it. -/
def ciEq (a b : List Char) : Bool := a.map Char.toLower == b.map Char.toLower

/-- Token-level description of one substitution pass for a key made of word
characters: every maximal run of word characters that equals the key
case-insensitively is replaced by `r`; all other characters are copied. -/
def tokSubst (k r : List Char) : List Char → List Char
  | [] => []
  | c :: rest =>
    if h : isWordChar c then
      (if ciEq (List.takeWhile isWordChar (c :: rest)) k then r
       else List.takeWhile isWordChar (c :: rest)) ++
        tokSubst k r (List.dropWhile isWordChar (c :: rest))
    else c :: tokSubst k r rest
termination_by s => s.length
decreasing_by
  · simp only [List.dropWhile_cons, h, if_true, List.length_cons]
    exact Nat.lt_succ_of_le (List.dropWhile_sublist _).length_le
  · simp

/-- Helper for `wordRuns` with an explicit structural bound, so that the
definition evaluates by kernel reduction. -/
def wordRunsF : Nat → List Char → List (List Char)
  | _, [] => []
  | 0, _ :: _ => []
  | fuel + 1, c :: rest =>
    if isWordChar c then
      List.takeWhile isWordChar (c :: rest) ::
        wordRunsF fuel (List.dropWhile isWordChar (c :: rest))
    else wordRunsF fuel rest

/-- The maximal runs of word characters of a string, in order. -/
def wordRuns (s : List Char) : List (List Char) := wordRunsF s.length s

/-- Sequential application of the token-level substitution of each entry, in
dictionary order: the intended meaning of the `forEach` loop for keys made of
word characters. -/
def tokFold (dict : List DictionaryEntry) (s : List Char) : List Char :=
  dict.foldl (fun t e => tokSubst e.word e.replacement t) s

/-! ## The recording pipeline -/

/-- An audio chunk / blob, as its byte content. -/
abbrev Blob := List Nat

/-- `interface VoiceNote` (App.tsx:16-22). -/
structure VoiceNote where
  id : String
  text : String
  original_text : String
  timestamp : Nat
  duration : Int
deriving DecidableEq

/-- The base64 alphabet. -/
def b64Char (n : Nat) : Char :=
  "ABCDEFGHIJKLMNOPQRSTUVWXYZabcdefghijklmnopqrstuvwxyz0123456789+/".data.getD n 'A'

/-- Standard base64 of a byte list, as `FileReader.readAsDataURL` produces after
the `data:audio/webm;base64,` header. -/
def base64Encode : List Nat → List Char
  | [] => []
  | [b1] => [b64Char (b1 / 4), b64Char (b1 % 4 * 16), '=', '=']
  | [b1, b2] => [b64Char (b1 / 4), b64Char (b1 % 4 * 16 + b2 / 16), b64Char (b2 % 16 * 4), '=']
  | b1 :: b2 :: b3 :: rest =>
    b64Char (b1 / 4) :: b64Char (b1 % 4 * 16 + b2 / 16) ::
      b64Char (b2 % 16 * 4 + b3 / 64) :: b64Char (b3 % 64) :: base64Encode rest

/-- The error thrown or propagated by each failing step of `processRecording`,
tagged by the step it came from; `message` is the string the catch block sees. -/
inductive PErr
  | noAudioData
  | emptyRecording
  | base64Failed
  | transcribeErr (msg : String)
  | generateErr (msg : String)
  | createErr (msg : String)
deriving DecidableEq

/-- The message of each error: for the three local guards, the exact
`new Error(...)` strings of App.tsx:123, 130, 143. -/
def PErr.message : PErr → String
  | .noAudioData => "No audio data recorded"
  | .emptyRecording => "Audio recording is empty"
  | .base64Failed => "Failed to convert audio to base64"
  | .transcribeErr m => m
  | .generateErr m => m
  | .createErr m => m

/-- The external-service steps of the pipeline, in the order the code awaits
them: base64 conversion, `blink.ai.transcribeAudio`, `blink.ai.generateText`,
`blink.db.voice_notes.create`. -/
inductive ServiceCall
  | encodeBase64
  | transcribe
  | generateText
  | storeCreate
deriving DecidableEq

/-- Outcomes of the external calls `processRecording` awaits, and the clock. -/
structure Env where
  transcribe : String → Except String String
  generateText : String → Except String String
  createNote : VoiceNote → Except String Unit
  now : Nat

/-- The fixed text of the correction prompt before the substituted transcript
(App.tsx:169-171, up to and including the opening quote). -/
def promptPrefix : String :=
  "Please correct grammar, improve formatting, and make this text more professional while preserving the original meaning and intent:\n\n\""

/-- The fixed text of the correction prompt after the substituted transcript
(App.tsx:171-179, from the closing quote on). -/
def promptSuffix : String :=
  "\"\n\nRules:\n- Fix grammar and spelling errors\n- Improve sentence structure\n- Add proper punctuation\n- Make it more professional but keep the original tone\n- Don't change the core meaning\n- Return only the corrected text without explanations"

/-- The correction prompt: the substituted text embedded verbatim between the
two fixed parts (the template literal of App.tsx:169-179). -/
def mkPrompt (processed : String) : String := promptPrefix ++ processed ++ promptSuffix

deriving instance DecidableEq for Except

/-- Everything observable about one `processRecording` run: its outcome, the
service calls it performed in order, the `voiceNotes` list and the flags after
it returns, and the intermediate texts. -/
structure ProcOut where
  result : Except PErr VoiceNote
  calls : List ServiceCall
  notesAfter : List VoiceNote
  transcribingAfter : Bool
  currentNoteAfter : Option String
  rawTranscript : Option String
  processedText : Option (List Char)
  promptSent : Option String
deriving DecidableEq

/-- Shallow embedding of `processRecording` (App.tsx:119-205): the guard on the
chunk list, the guard on the concatenated blob's size, base64 conversion with
its emptiness check, then the three awaited service calls strictly in sequence;
the catch block clears the transcribing flag on every failure, and the
in-memory `voiceNotes` list is prepended to only after the database create
resolves. Returns `none` only when the dictionary holds an entry outside the
modelled regex fragment. -/
def processRecording (env : Env) (dict : List DictionaryEntry) (notes : List VoiceNote)
    (audioChunks : List Blob) (duration : Int) : Option ProcOut :=
  if audioChunks.length = 0 then
    some ⟨.error .noAudioData, [], notes, false, none, none, none, none⟩
  else
    if audioChunks.flatten.length = 0 then
      some ⟨.error .emptyRecording, [], notes, false, none, none, none, none⟩
    else
      if (base64Encode audioChunks.flatten).length = 0 then
        some ⟨.error .base64Failed, [.encodeBase64], notes, false, none, none, none, none⟩
      else
        match env.transcribe (String.mk (base64Encode audioChunks.flatten)) with
        | .error m =>
          some ⟨.error (.transcribeErr m), [.encodeBase64, .transcribe], notes, false,
            none, none, none, none⟩
        | .ok originalText =>
          match applyDict dict originalText.data with
          | none => none
          | some processed =>
            match env.generateText (mkPrompt (String.mk processed)) with
            | .error m =>
              some ⟨.error (.generateErr m), [.encodeBase64, .transcribe, .generateText],
                notes, false, none, some originalText, some processed,
                some (mkPrompt (String.mk processed))⟩
            | .ok correctedText =>
              match env.createNote ⟨toString env.now, correctedText, originalText,
                  env.now, duration⟩ with
              | .error m =>
                some ⟨.error (.createErr m),
                  [.encodeBase64, .transcribe, .generateText, .storeCreate],
                  notes, false, none, some originalText, some processed,
                  some (mkPrompt (String.mk processed))⟩
              | .ok _ =>
                some ⟨.ok ⟨toString env.now, correctedText, originalText, env.now, duration⟩,
                  [.encodeBase64, .transcribe, .generateText, .storeCreate],
                  ⟨toString env.now, correctedText, originalText, env.now, duration⟩ :: notes,
                  false, some correctedText,
                  some originalText, some processed, some (mkPrompt (String.mk processed))⟩

/-! ## Recorder -/

/-- The `onstop` closure created inside `startRecording` (App.tsx:93-96): it
captures the render-scope constant `recordingStart`. -/
structure ActiveRecording where
  capturedStart : Nat
deriving DecidableEq

/-- `useState<number>(0)` (App.tsx:38): the initial `recordingStart` state. -/
def initialRecordingStart : Nat := 0

/-- `startRecording` (App.tsx:80-107) as it affects the duration computation:
it installs the `onstop` closure — which captures `recordingStart`, the state
value of the render in which `startRecording` ran, i.e. the value from before
`setRecordingStart(Date.now())` takes effect — and then schedules the state
update to `now`. Returns the installed closure's capture and the new state
value. -/
def startRecording (recordingStart : Nat) (now : Nat) : ActiveRecording × Nat :=
  (⟨recordingStart⟩, now)

/-- The duration computed inside `onstop`: `Date.now() - recordingStart` with
the value the closure captured (App.tsx:94). -/
def onstopDuration (rec : ActiveRecording) (now : Nat) : Int :=
  (now : Int) - (rec.capturedStart : Int)

/-- `recorder.ondataavailable` (App.tsx:87-91): a chunk is buffered only when
`event.data.size > 0`. -/
def onDataAvailable (chunks : List Blob) (data : Blob) : List Blob :=
  if data.length > 0 then chunks ++ [data] else chunks

/-- The chunk list accumulated over a sequence of `ondataavailable` events. -/
def recordedChunks (events : List Blob) : List Blob :=
  events.foldl onDataAvailable []

/-! ## Store handlers -/

/-- `addDictionaryEntry` (App.tsx:212-231): returns unchanged if either trimmed
input is empty; otherwise the remote create runs and the in-memory list is
appended to only when it succeeds. -/
def addDictionaryEntry (createRes : Except String Unit) (newWord newReplacement : String)
    (dict : List DictionaryEntry) : List DictionaryEntry :=
  if newWord.trim.isEmpty || newReplacement.trim.isEmpty then dict
  else
    match createRes with
    | .ok _ => dict ++ [⟨newWord.trim.data, newReplacement.trim.data⟩]
    | .error _ => dict

/-- `deleteDictionaryEntry` (App.tsx:233-242): the in-memory list is filtered
only after the remote delete succeeds. -/
def deleteDictionaryEntry (deleteRes : Except String Unit) (word : List Char)
    (dict : List DictionaryEntry) : List DictionaryEntry :=
  match deleteRes with
  | .ok _ => dict.filter fun e => e.word != word
  | .error _ => dict

/-- `deleteNote` (App.tsx:244-253): the in-memory list is filtered only after
the remote delete succeeds. -/
def deleteNote (deleteRes : Except String Unit) (id : String)
    (notes : List VoiceNote) : List VoiceNote :=
  match deleteRes with
  | .ok _ => notes.filter fun n => n.id != id
  | .error _ => notes

/-! ## Theorems -/

/-- C2: for every recording whose buffered chunk list is empty, `processRecording`
fails with the "No audio data recorded" error, performs no external service call
(no encoding, no transcription, no text generation, no store write), leaves the
in-memory notes unchanged and clears the transcribing flag. -/
theorem emptyChunks_failsEarly_noCalls (env : Env) (dict : List DictionaryEntry)
    (notes : List VoiceNote) (dur : Int) :
    processRecording env dict notes [] dur =
      some ⟨.error .noAudioData, [], notes, false, none, none, none, none⟩ := rfl

/-- C1: the code builds the replacement regex from the raw user key, so a regex
metacharacter in the key is interpreted, not matched literally: with the entry
`{word: "a.c", replacement: "X"}` the transcript `"abc"` — which contains no
occurrence of the key `"a.c"` at all — is rewritten to `"X"` (the `.` matched
`b`), while the spec's literal whole-word contract leaves `"abc"` unchanged. -/
theorem metachar_key_is_interpreted_not_literal :
    applyDict [⟨"a.c".data, "X".data⟩] "abc".data = some "X".data ∧
    specApplyEntry "abc".data ⟨"a.c".data, "X".data⟩ = "abc".data ∧
    "X".data ≠ "abc".data := by
  refine ⟨by decide, by decide, by decide⟩

/-- C5: the `onstop` closure computes the duration from the stale
`recordingStart` value captured at the render in which `startRecording` ran,
not from the start time `setRecordingStart(Date.now())` stored for this
recording: on the first recording (initial state 0) started at 1000 and stopped
at 1500 the stored duration is 1500, not the elapsed 500; on a second recording
started at 2000 and stopped at 2100 it is 1100, not 100. -/
theorem onstop_duration_uses_stale_start :
    onstopDuration (startRecording initialRecordingStart 1000).1 1500 = 1500 ∧
    (1500 : Int) - 1000 = 500 ∧ (1500 : Int) ≠ 500 ∧
    onstopDuration (startRecording (startRecording initialRecordingStart 1000).2 2000).1 2100 = 1100 ∧
    (2100 : Int) - 2000 = 100 ∧ (1100 : Int) ≠ 100 := by
  refine ⟨by decide, by decide, by decide, by decide, by decide, by decide⟩

/-- C3 counterexample: a dictionary entry with the phrase key `"b c"` and
replacement `"x b"` — replacement vocabulary (`x`, `b`) disjoint from the key
set — is not idempotent: `"b c c"` maps to `"x b c"` in one pass and to
`"x x b"` after a second pass. -/
theorem substitution_not_idempotent_counterexample :
    applyDict [⟨"b c".data, "x b".data⟩] "b c c".data = some "x b c".data ∧
    applyDict [⟨"b c".data, "x b".data⟩] "x b c".data = some "x x b".data ∧
    "x b c".data ≠ "x x b".data := by
  refine ⟨by decide, by decide, by decide⟩

/-- C4 counterexample: with the pairwise non-overlapping single-word keys `"a"`
and `"b"`, applying the two entries in the two possible orders on the text
`"a"` gives different results (`"c"` versus `"b"`): the transform is not
order-independent as claimed. -/
theorem substitution_order_dependent_counterexample :
    applyDict [⟨"a".data, "b".data⟩, ⟨"b".data, "c".data⟩] "a".data = some "c".data ∧
    applyDict [⟨"b".data, "c".data⟩, ⟨"a".data, "b".data⟩] "a".data = some "b".data ∧
    "c".data ≠ "b".data := by
  refine ⟨by decide, by decide, by decide⟩

/-- A nonempty byte list has a nonempty base64 encoding. -/
theorem base64Encode_ne_nil : (b : List Nat) → b ≠ [] → base64Encode b ≠ []
  | [], h => absurd rfl h
  | [_], _ => by simp [base64Encode]
  | [_, _], _ => by simp [base64Encode]
  | _ :: _ :: _ :: _, _ => by simp [base64Encode]

/-- Every chunk the `ondataavailable` handler buffers is nonempty. -/
theorem recordedChunks_mem_ne_nil (events : List Blob) :
    ∀ b ∈ recordedChunks events, b ≠ [] := by
  suffices h : ∀ acc, (∀ b ∈ acc, b ≠ []) → ∀ b ∈ events.foldl onDataAvailable acc, b ≠ [] by
    exact h [] (by simp)
  induction events with
  | nil => exact fun acc hacc => hacc
  | cons e es ih =>
    intro acc hacc
    refine ih (onDataAvailable acc e) ?_
    intro b hb
    unfold onDataAvailable at hb
    split at hb
    · rcases List.mem_append.1 hb with h1 | h1
      · exact hacc b h1
      · rcases List.mem_singleton.1 h1 with rfl
        intro hnil
        simp [hnil] at *
    · exact hacc b hb

/-- C8: the encoder stage reports each failing condition with its own error:
the no-data conditions yield `noAudioData` (empty chunk list) or
`emptyRecording` (zero-byte payload), the encoding-produced-empty-output
condition yields `base64Failed`, and these error values — and the messages the
caller sees — are pairwise distinct, so the caller can disambiguate them. -/
theorem encoder_errors_distinct (env : Env) (dict : List DictionaryEntry)
    (notes : List VoiceNote) (chunks : List Blob) (dur : Int) (out : ProcOut)
    (h : processRecording env dict notes chunks dur = some out)
    (hempty : chunks.flatten.length = 0) :
    (out.result = .error .noAudioData ∨ out.result = .error .emptyRecording) ∧
    (chunks = [] → out.result = .error .noAudioData) ∧
    (chunks ≠ [] → out.result = .error .emptyRecording) ∧
    PErr.noAudioData ≠ PErr.emptyRecording ∧
    PErr.noAudioData ≠ PErr.base64Failed ∧
    PErr.emptyRecording ≠ PErr.base64Failed ∧
    PErr.noAudioData.message ≠ PErr.emptyRecording.message ∧
    PErr.noAudioData.message ≠ PErr.base64Failed.message ∧
    PErr.emptyRecording.message ≠ PErr.base64Failed.message := by
  by_cases hc : chunks = []
  · subst hc
    have h0 : processRecording env dict notes [] dur =
        some ⟨.error .noAudioData, [], notes, false, none, none, none, none⟩ := rfl
    rw [h0, Option.some.injEq] at h
    subst h
    refine ⟨Or.inl rfl, fun _ => rfl, fun hne => absurd rfl hne, ?_, ?_, ?_, ?_, ?_, ?_⟩ <;> decide
  · have h1 : ¬ chunks.length = 0 := fun h0 => hc (List.length_eq_zero.1 h0)
    unfold processRecording at h
    rw [if_neg h1, if_pos hempty, Option.some.injEq] at h
    subst h
    refine ⟨Or.inr rfl, fun he => absurd he hc, fun _ => rfl, ?_, ?_, ?_, ?_, ?_, ?_⟩ <;> decide

/-- C9: the pipeline's service calls happen strictly in the order
encode, transcribe, generate, store-create (every run's call list is a prefix
of that sequence); the transcribing flag is cleared on every outcome; a failing
run leaves the in-memory notes and current note untouched (no partial note),
and only a fully successful run performs all four calls. -/
theorem pipeline_sequential_abort (env : Env) (dict : List DictionaryEntry)
    (notes : List VoiceNote) (chunks : List Blob) (dur : Int) (out : ProcOut)
    (h : processRecording env dict notes chunks dur = some out) :
    (∃ t, out.calls ++ t =
      [ServiceCall.encodeBase64, .transcribe, .generateText, .storeCreate]) ∧
    out.transcribingAfter = false ∧
    (out.result.isOk = false → out.notesAfter = notes ∧ out.currentNoteAfter = none) ∧
    (out.result.isOk = true → out.calls =
      [ServiceCall.encodeBase64, .transcribe, .generateText, .storeCreate]) := by
  unfold processRecording at h
  split at h
  · rw [Option.some.injEq] at h; subst h
    exact ⟨⟨_, rfl⟩, rfl, fun _ => ⟨rfl, rfl⟩, fun hk => by simp [Except.isOk, Except.toBool] at hk⟩
  · split at h
    · rw [Option.some.injEq] at h; subst h
      exact ⟨⟨_, rfl⟩, rfl, fun _ => ⟨rfl, rfl⟩, fun hk => by simp [Except.isOk, Except.toBool] at hk⟩
    · split at h
      · rw [Option.some.injEq] at h; subst h
        exact ⟨⟨_, rfl⟩, rfl, fun _ => ⟨rfl, rfl⟩, fun hk => by simp [Except.isOk, Except.toBool] at hk⟩
      · split at h
        · rw [Option.some.injEq] at h; subst h
          exact ⟨⟨_, rfl⟩, rfl, fun _ => ⟨rfl, rfl⟩, fun hk => by simp [Except.isOk, Except.toBool] at hk⟩
        · split at h
          · exact absurd h (by simp)
          · split at h
            · rw [Option.some.injEq] at h; subst h
              exact ⟨⟨_, rfl⟩, rfl, fun _ => ⟨rfl, rfl⟩, fun hk => by simp [Except.isOk, Except.toBool] at hk⟩
            · split at h
              · rw [Option.some.injEq] at h; subst h
                exact ⟨⟨_, rfl⟩, rfl, fun _ => ⟨rfl, rfl⟩, fun hk => by simp [Except.isOk, Except.toBool] at hk⟩
              · rw [Option.some.injEq] at h; subst h
                exact ⟨⟨_, rfl⟩, rfl, fun hk => by simp [Except.isOk, Except.toBool] at hk, fun _ => rfl⟩

/-- C10: the recorder buffers only chunks of size greater than zero, so any
chunk list it produces that passes the non-emptiness check concatenates to a
blob of positive size, and the "Audio recording is empty" branch of
`processRecording` cannot be reached from recorder-produced input. -/
theorem recorder_chunks_zeroBlob_unreachable (env : Env) (dict : List DictionaryEntry)
    (notes : List VoiceNote) (events : List Blob) (dur : Int) (out : ProcOut)
    (hne : recordedChunks events ≠ [])
    (h : processRecording env dict notes (recordedChunks events) dur = some out) :
    0 < (recordedChunks events).flatten.length ∧
    out.result ≠ .error .emptyRecording := by
  have hpos : 0 < (recordedChunks events).flatten.length := by
    obtain ⟨b, hb⟩ := List.exists_mem_of_ne_nil _ hne
    have hbne : b ≠ [] := recordedChunks_mem_ne_nil events b hb
    have h1 : 0 < b.length := List.length_pos.2 hbne
    have h2 : b.length ≤ ((recordedChunks events).map List.length).sum :=
      List.single_le_sum (fun x _ => Nat.zero_le x) _ (List.mem_map_of_mem _ hb)
    rw [List.length_flatten]
    exact Nat.lt_of_lt_of_le h1 h2
  refine ⟨hpos, ?_⟩
  have h1 : ¬ (recordedChunks events).length = 0 :=
    fun h0 => hne (List.length_eq_zero.1 h0)
  have h2 : ¬ (recordedChunks events).flatten.length = 0 := Nat.pos_iff_ne_zero.1 hpos
  unfold processRecording at h
  rw [if_neg h1, if_neg h2] at h
  split at h
  · rw [Option.some.injEq] at h; subst h; simp
  · split at h
    · rw [Option.some.injEq] at h; subst h; simp
    · split at h
      · exact absurd h (by simp)
      · split at h
        · rw [Option.some.injEq] at h; subst h; simp
        · split at h
          · rw [Option.some.injEq] at h; subst h; simp
          · rw [Option.some.injEq] at h; subst h; simp

/-- C6: a failing remote call leaves the corresponding in-memory collection
unchanged, for all four store operations: dictionary-entry create,
dictionary-entry delete, note delete, and the note create inside
`processRecording` (a failing run's notes list is untouched). -/
theorem remote_failure_preserves_memory (msg w r : String) (word : List Char)
    (dict : List DictionaryEntry) (id : String) (notes : List VoiceNote)
    (env : Env) (d : List DictionaryEntry) (chunks : List Blob) (dur : Int)
    (out : ProcOut) (e : PErr)
    (hproc : processRecording env d notes chunks dur = some out)
    (hres : out.result = .error e) :
    addDictionaryEntry (.error msg) w r dict = dict ∧
    deleteDictionaryEntry (.error msg) word dict = dict ∧
    deleteNote (.error msg) id notes = notes ∧
    out.notesAfter = notes := by
  refine ⟨?_, rfl, rfl, ?_⟩
  · unfold addDictionaryEntry
    split <;> rfl
  · have hok := (pipeline_sequential_abort env d notes chunks dur out hproc).2.2.1
    rw [hres] at hok
    exact (hok rfl).1

/-- C7: with unique word keys, deleting the dictionary entry whose key is a
present word `w` removes exactly one entry — the one keyed `w` — and every
other entry is kept unchanged. -/
theorem deleteDictionaryEntry_removes_exactly_one (dict : List DictionaryEntry)
    (w : List Char)
    (hnodup : (dict.map DictionaryEntry.word).Nodup)
    (hmem : ∃ e ∈ dict, e.word = w) :
    (deleteDictionaryEntry (.ok ()) w dict).length + 1 = dict.length ∧
    (∀ e ∈ dict, e.word ≠ w → e ∈ deleteDictionaryEntry (.ok ()) w dict) ∧
    (∀ e ∈ deleteDictionaryEntry (.ok ()) w dict, e ∈ dict ∧ e.word ≠ w) := by
  refine ⟨?_, ?_, ?_⟩
  · show (dict.filter fun e => e.word != w).length + 1 = dict.length
    induction dict with
    | nil => exact absurd hmem (by simp)
    | cons a l ih =>
      rw [List.map_cons, List.nodup_cons] at hnodup
      by_cases ha : a.word = w
      · rw [List.filter_cons_of_neg (by simp [ha]), List.length_cons]
        have hl : l.filter (fun e => e.word != w) = l := by
          refine List.filter_eq_self.2 fun e he => ?_
          have : e.word ≠ w := fun hw => hnodup.1 (by
            rw [ha, ← hw]; exact List.mem_map_of_mem _ he)
          simpa using this
        rw [hl]
      · rw [List.filter_cons_of_pos (by simpa using ha), List.length_cons,
          List.length_cons]
        obtain ⟨e, he, hew⟩ := hmem
        rcases List.mem_cons.1 he with rfl | he'
        · exact absurd hew ha
        · rw [ih hnodup.2 ⟨e, he', hew⟩]
  · intro e he hew
    show e ∈ dict.filter fun e => e.word != w
    rw [List.mem_filter]
    exact ⟨he, by simpa using hew⟩
  · intro e he
    rw [show deleteDictionaryEntry (.ok ()) w dict =
      dict.filter fun e => e.word != w from rfl, List.mem_filter] at he
    exact ⟨he.1, by simpa using he.2⟩

/-- A service environment in which every external call succeeds. -/
def envAllOk : Env := ⟨fun _ => .ok "im gonna go", fun _ => .ok "ok", fun _ => .ok (), 5⟩

/-- A service environment in which the database create fails. -/
def envCreateFails : Env :=
  ⟨fun _ => .ok "im gonna go", fun _ => .ok "ok", fun _ => .error "down", 5⟩

/-- The output of a fully successful run of `envAllOk` on one nonempty chunk
with an empty dictionary. -/
def outAllOk : ProcOut :=
  ⟨.ok ⟨"5", "ok", "im gonna go", 5, 0⟩,
   [.encodeBase64, .transcribe, .generateText, .storeCreate],
   [⟨"5", "ok", "im gonna go", 5, 0⟩], false, some "ok",
   some "im gonna go", some "im gonna go".data, some (mkPrompt "im gonna go")⟩

/-- The output of a run of `envCreateFails` on one nonempty chunk with an empty
dictionary: everything succeeds until the database create fails. -/
def outCreateFails : ProcOut :=
  ⟨.error (.createErr "down"),
   [.encodeBase64, .transcribe, .generateText, .storeCreate],
   [], false, none,
   some "im gonna go", some "im gonna go".data, some (mkPrompt "im gonna go")⟩

/-- Witness for C8 at the concrete input `chunks = [[], []]`. -/
theorem encoder_errors_distinct_witness :
    ([[], []] : List Blob).flatten.length = 0 ∧
    processRecording envAllOk [] [] [[], []] 0 =
      some ⟨.error .emptyRecording, [], [], false, none, none, none, none⟩ ∧
    (⟨.error .emptyRecording, [], [], false, none, none, none, none⟩ : ProcOut).result =
      .error .emptyRecording :=
  ⟨by decide, by decide,
    (encoder_errors_distinct envAllOk [] [] [[], []] 0
      ⟨.error .emptyRecording, [], [], false, none, none, none, none⟩
      (by decide) (by decide)).2.2.1 (by decide)⟩

/-- Witness for C9 at a concrete fully successful run. -/
theorem pipeline_sequential_abort_witness :
    processRecording envAllOk [] [] [[1, 2, 3]] 0 = some outAllOk ∧
    outAllOk.transcribingAfter = false ∧
    outAllOk.calls =
      [ServiceCall.encodeBase64, .transcribe, .generateText, .storeCreate] :=
  ⟨by decide,
    (pipeline_sequential_abort envAllOk [] [] [[1, 2, 3]] 0 outAllOk (by decide)).2.1,
    (pipeline_sequential_abort envAllOk [] [] [[1, 2, 3]] 0 outAllOk (by decide)).2.2.2
      (by decide)⟩

/-- Witness for C10 at the concrete event list `[[7]]`. -/
theorem recorder_chunks_zeroBlob_unreachable_witness :
    recordedChunks [[7]] ≠ [] ∧
    processRecording envAllOk [] [] (recordedChunks [[7]]) 0 = some outAllOk ∧
    0 < (recordedChunks [[7]]).flatten.length ∧
    outAllOk.result ≠ .error .emptyRecording :=
  ⟨by decide, by decide,
    (recorder_chunks_zeroBlob_unreachable envAllOk [] [] [[7]] 0 outAllOk
      (by decide) (by decide)).1,
    (recorder_chunks_zeroBlob_unreachable envAllOk [] [] [[7]] 0 outAllOk
      (by decide) (by decide)).2⟩

/-- Witness for C6 at a concrete run whose database create fails. -/
theorem remote_failure_preserves_memory_witness :
    processRecording envCreateFails [] [] [[1, 2, 3]] 0 = some outCreateFails ∧
    outCreateFails.result = .error (.createErr "down") ∧
    (addDictionaryEntry (.error "down") "gonna" "going to" [] = [] ∧
      deleteDictionaryEntry (.error "down") "gonna".data [] = [] ∧
      deleteNote (.error "down") "1" [] = [] ∧
      outCreateFails.notesAfter = []) :=
  ⟨by decide, by decide,
    remote_failure_preserves_memory "down" "gonna" "going to" "gonna".data []
      "1" [] envCreateFails [] [[1, 2, 3]] 0 outCreateFails (.createErr "down")
      (by decide) (by decide)⟩

/-- A concrete two-entry dictionary with distinct keys. -/
def dictTwo : List DictionaryEntry :=
  [⟨"gonna".data, "going to".data⟩, ⟨"wanna".data, "want to".data⟩]

/-- Witness for C7 at the concrete dictionary `dictTwo` and key `"gonna"`. -/
theorem deleteDictionaryEntry_removes_exactly_one_witness :
    (dictTwo.map DictionaryEntry.word).Nodup ∧
    (deleteDictionaryEntry (.ok ()) "gonna".data dictTwo).length + 1 = dictTwo.length :=
  ⟨by decide,
    (deleteDictionaryEntry_removes_exactly_one dictTwo "gonna".data (by decide)
      ⟨⟨"gonna".data, "going to".data⟩, by decide, rfl⟩).1⟩

/-! ## Character-level facts about case folding and word characters -/

/-- Characters are equal iff their code points are. -/
theorem char_eq_iff_toNat {a b : Char} : a = b ↔ a.toNat = b.toNat :=
  ⟨fun h => h ▸ rfl, fun h => Char.ext (UInt32.ext h)⟩

/-- The code point of `Char.ofNat n` for small `n`. -/
theorem toNat_ofNat_small (n : Nat) (h : n < 55296) : (Char.ofNat n).toNat = n := by
  unfold Char.ofNat
  rw [dif_pos (Or.inl h)]
  unfold Char.ofNatAux Char.toNat
  simp [UInt32.toNat, BitVec.toNat_ofNatLt]

/-- Word-character-ness as ranges of the code point. -/
theorem isWordChar_iff (c : Char) : isWordChar c = true ↔
    (48 ≤ c.toNat ∧ c.toNat ≤ 57) ∨ (65 ≤ c.toNat ∧ c.toNat ≤ 90) ∨
    (97 ≤ c.toNat ∧ c.toNat ≤ 122) ∨ c.toNat = 95 := by
  have h95 : (c = '_') ↔ c.toNat = 95 := char_eq_iff_toNat
  simp only [isWordChar, Char.isAlphanum, Char.isAlpha, Char.isUpper, Char.isLower,
    Char.isDigit, Bool.or_eq_true, Bool.and_eq_true, decide_eq_true_eq, h95]
  exact ⟨fun h => by tauto, fun h => by tauto⟩

/-- The code point of `Char.toLower`. -/
theorem toLower_toNat (c : Char) : (Char.toLower c).toNat =
    if 65 ≤ c.toNat ∧ c.toNat ≤ 90 then c.toNat + 32 else c.toNat := by
  unfold Char.toLower
  split
  · next h => rw [if_pos h, toNat_ofNat_small _ (by omega)]
  · next h => rw [if_neg h]

/-- Case folding preserves word-character-ness: two characters that fold to the
same character are both word characters or both not. -/
theorem isWordChar_eq_of_toLower_eq {a c : Char} (h : a.toLower = c.toLower) :
    isWordChar a = isWordChar c := by
  have hn : (Char.toLower a).toNat = (Char.toLower c).toNat := by rw [h]
  rw [toLower_toNat, toLower_toNat] at hn
  rw [Bool.eq_iff_iff, isWordChar_iff, isWordChar_iff]
  split at hn <;> split at hn <;> omega

/-- A word character is not a regex metacharacter. -/
theorem jsMeta_eq_false_of_isWordChar {c : Char} (h : isWordChar c = true) :
    jsMeta c = false := by
  rw [isWordChar_iff] at h
  simp only [jsMeta, Bool.or_eq_false_iff, decide_eq_false_iff_not, char_eq_iff_toNat]
  refine ⟨⟨⟨⟨⟨⟨⟨⟨⟨⟨⟨⟨?_, ?_⟩, ?_⟩, ?_⟩, ?_⟩, ?_⟩, ?_⟩, ?_⟩, ?_⟩, ?_⟩, ?_⟩, ?_⟩, ?_⟩ <;>
    · simp only [show Char.toNat '\\' = 92 from rfl, show Char.toNat '^' = 94 from rfl,
        show Char.toNat '$' = 36 from rfl, show Char.toNat '|' = 124 from rfl,
        show Char.toNat '?' = 63 from rfl, show Char.toNat '*' = 42 from rfl,
        show Char.toNat '+' = 43 from rfl, show Char.toNat '(' = 40 from rfl,
        show Char.toNat ')' = 41 from rfl, show Char.toNat '[' = 91 from rfl,
        show Char.toNat ']' = 93 from rfl, show Char.toNat '\x7b' = 123 from rfl,
        show Char.toNat '\x7d' = 125 from rfl]
      omega

/-! ## Matching lemmas for literal all-word-character patterns -/

/-- The running word-ness after the scan passes over `l`: the word-ness of the
last character of `l`, or `w` when `l` is empty. -/
def endW (w : Bool) (l : List Char) : Bool := l.foldl (fun _ c => isWordChar c) w

theorem endW_nil (w : Bool) : endW w [] = w := rfl

theorem endW_cons (w : Bool) (c : Char) (l : List Char) :
    endW w (c :: l) = endW (isWordChar c) l := rfl

theorem endW_allWord {p : List Char} (hp : ∀ c ∈ p, isWordChar c = true)
    (hne : p ≠ []) (w : Bool) : endW w p = true := by
  induction p generalizing w with
  | nil => exact absurd rfl hne
  | cons c l ih =>
    rw [endW_cons]
    rcases eq_or_ne l [] with rfl | hl
    · rw [endW_nil]
      exact hp c (by simp)
    · exact ih (fun d hd => hp d (by simp [hd])) hl _

theorem ciEq_iff {a b : List Char} :
    ciEq a b = true ↔ a.map Char.toLower = b.map Char.toLower := by
  simp [ciEq]

theorem ciEq_length {a b : List Char} (h : ciEq a b = true) : a.length = b.length := by
  rw [ciEq_iff] at h
  simpa using congrArg List.length h

theorem allWord_of_ciEq {p k : List Char} (h : ciEq p k = true)
    (hk : ∀ c ∈ k, isWordChar c = true) : ∀ c ∈ p, isWordChar c = true := by
  rw [ciEq_iff] at h
  induction p generalizing k with
  | nil => simp
  | cons c p' ih =>
    cases k with
    | nil => simp at h
    | cons a k' =>
      simp only [List.map_cons, List.cons.injEq] at h
      intro d hd
      rcases List.mem_cons.1 hd with rfl | hd'
      · rw [isWordChar_eq_of_toLower_eq h.1]
        exact hk a (by simp)
      · exact ih h.2 (fun x hx => hk x (by simp [hx])) d hd'

theorem matchPat_lit_complete {k p : List Char} (h : ciEq p k = true) (w : Bool)
    (t : List Char) :
    matchPat (k.map RChar.lit) w (p ++ t) = some (endW w p, t) := by
  rw [ciEq_iff] at h
  induction k generalizing p w with
  | nil =>
    have hp : p = [] := by simpa using h
    subst hp
    rfl
  | cons a k' ih =>
    cases p with
    | nil => simp at h
    | cons c p' =>
      simp only [List.map_cons, List.cons.injEq] at h
      have hr : rmatch (RChar.lit a) c = true := by
        simp [rmatch, h.1]
      simp only [List.map_cons, List.cons_append, matchPat, hr, if_true]
      rw [endW_cons]
      exact ih h.2 _

theorem matchPat_lit_sound {k : List Char} : ∀ {w : Bool} {s : List Char}
    {w' : Bool} {rest : List Char},
    matchPat (k.map RChar.lit) w s = some (w', rest) →
    ∃ p, s = p ++ rest ∧ ciEq p k = true ∧ w' = endW w p := by
  induction k with
  | nil =>
    intro w s w' rest h
    simp only [List.map_nil, matchPat, Option.some.injEq, Prod.mk.injEq] at h
    exact ⟨[], by simp [h.2], by simp [ciEq], by rw [endW_nil, h.1]⟩
  | cons a k' ih =>
    intro w s w' rest h
    cases s with
    | nil => simp [matchPat] at h
    | cons c s' =>
      simp only [List.map_cons, matchPat] at h
      by_cases hr : rmatch (RChar.lit a) c = true
      · rw [if_pos hr] at h
        obtain ⟨p', hs, hci, hw⟩ := ih h
        refine ⟨c :: p', by simp [hs], ?_, by rw [endW_cons]; exact hw⟩
        rw [ciEq_iff] at hci ⊢
        simp only [List.map_cons, List.cons.injEq]
        refine ⟨?_, hci⟩
        simpa [rmatch, eq_comm] using hr
      · rw [if_neg hr] at h
        exact absurd h (by simp)

theorem takeWhile_word_append {p t : List Char} (hp : ∀ c ∈ p, isWordChar c = true)
    (ht : headW t = false) : List.takeWhile isWordChar (p ++ t) = p := by
  induction p with
  | nil =>
    cases t with
    | nil => rfl
    | cons d t' =>
      simp only [headW] at ht
      simp [List.takeWhile_cons, ht]
  | cons c p' ih =>
    simp only [List.cons_append, List.takeWhile_cons, hp c (by simp), if_true]
    rw [ih (fun d hd => hp d (by simp [hd]))]

theorem dropWhile_word_append {p t : List Char} (hp : ∀ c ∈ p, isWordChar c = true)
    (ht : headW t = false) : List.dropWhile isWordChar (p ++ t) = t := by
  induction p with
  | nil =>
    cases t with
    | nil => rfl
    | cons d t' =>
      simp only [headW] at ht
      simp [List.dropWhile_cons, ht]
  | cons c p' ih =>
    simp only [List.cons_append, List.dropWhile_cons, hp c (by simp), if_true]
    exact ih (fun d hd => hp d (by simp [hd]))

theorem headW_dropWhile_word (s : List Char) :
    headW (List.dropWhile isWordChar s) = false := by
  induction s with
  | nil => rfl
  | cons c s' ih =>
    rw [List.dropWhile_cons]
    by_cases hc : isWordChar c = true
    · simpa [hc] using ih
    · simp only [Bool.not_eq_true] at hc
      simp [hc, headW]

theorem allWord_takeWhile (s : List Char) :
    ∀ c ∈ List.takeWhile isWordChar s, isWordChar c = true :=
  fun _ hc => List.mem_takeWhile_imp hc

theorem scan_skip (pat : List RChar) (r : List Char) :
    ∀ (n : Nat) (s : List Char) (prevW : Bool), n ≤ s.length →
      scan pat r prevW n s = scan pat r (endW prevW (s.take n)) 0 (s.drop n) := by
  intro n
  induction n with
  | zero => intro s prevW _; simp [endW_nil]
  | succ n ih =>
    intro s prevW hn
    cases s with
    | nil => simp at hn
    | cons c rest =>
      rw [show scan pat r prevW (n + 1) (c :: rest) = scan pat r (isWordChar c) n rest
        from rfl]
      rw [ih rest _ (by simpa using hn)]
      rw [List.take_succ_cons, List.drop_succ_cons, endW_cons]

/-! ## Unfolding lemmas for the scanner and the token substitution -/

theorem scan_zero_nil (pat : List RChar) (r : List Char) (prevW : Bool) :
    scan pat r prevW 0 [] = if pat.isEmpty && boundary prevW false then r else [] := rfl

theorem scan_zero_cons (pat : List RChar) (r : List Char) (prevW : Bool)
    (c : Char) (rest : List Char) :
    scan pat r prevW 0 (c :: rest) =
      if boundary prevW (isWordChar c) then
        match matchPat pat prevW (c :: rest) with
        | some (lastW, rest') =>
          if boundary lastW (headW rest') then
            if pat.isEmpty then r ++ c :: scan pat r (isWordChar c) 0 rest
            else r ++ scan pat r (isWordChar c) (pat.length - 1) rest
          else c :: scan pat r (isWordChar c) 0 rest
        | none => c :: scan pat r (isWordChar c) 0 rest
      else c :: scan pat r (isWordChar c) 0 rest := rfl

theorem tokSubst_nil (k r : List Char) : tokSubst k r [] = [] := by
  rw [tokSubst]

theorem tokSubst_cons_word (k r : List Char) {c : Char} (rest : List Char)
    (hc : isWordChar c = true) :
    tokSubst k r (c :: rest) =
      (if ciEq (List.takeWhile isWordChar (c :: rest)) k then r
       else List.takeWhile isWordChar (c :: rest)) ++
        tokSubst k r (List.dropWhile isWordChar (c :: rest)) := by
  rw [tokSubst, dif_pos hc]

theorem tokSubst_cons_nonword (k r : List Char) {c : Char} (rest : List Char)
    (hc : isWordChar c = false) :
    tokSubst k r (c :: rest) = c :: tokSubst k r rest := by
  rw [tokSubst, dif_neg (by simp [hc])]

theorem wordRunsF_congr : ∀ fuel fuel' : Nat, ∀ s : List Char,
    s.length ≤ fuel → s.length ≤ fuel' → wordRunsF fuel s = wordRunsF fuel' s := by
  intro fuel
  induction fuel with
  | zero =>
    intro fuel' s hs _
    have hsnil : s = [] := by
      cases s
      · rfl
      · simp at hs
    subst hsnil
    cases fuel' <;> rfl
  | succ n ih =>
    intro fuel' s hs hs'
    cases s with
    | nil => cases fuel' <;> rfl
    | cons c rest =>
      cases fuel' with
      | zero => simp at hs'
      | succ m =>
        simp only [wordRunsF]
        by_cases hc : isWordChar c = true
        · rw [if_pos hc, if_pos hc]
          have hD : (List.dropWhile isWordChar (c :: rest)).length ≤ rest.length := by
            rw [List.dropWhile_cons_of_pos hc]
            exact (List.dropWhile_sublist _).length_le
          rw [ih m _ (Nat.le_trans hD (by simpa using hs))
            (Nat.le_trans hD (by simpa using hs'))]
        · rw [Bool.not_eq_true] at hc
          rw [if_neg (by simp [hc]), if_neg (by simp [hc]),
            ih m rest (by simpa using hs) (by simpa using hs')]

theorem wordRuns_nil : wordRuns [] = [] := rfl

theorem wordRuns_cons_word {c : Char} (rest : List Char) (hc : isWordChar c = true) :
    wordRuns (c :: rest) =
      List.takeWhile isWordChar (c :: rest) ::
        wordRuns (List.dropWhile isWordChar (c :: rest)) := by
  show wordRunsF (rest.length + 1) (c :: rest) = _
  simp only [wordRunsF]
  rw [if_pos hc]
  have hD : (List.dropWhile isWordChar (c :: rest)).length ≤ rest.length := by
    rw [List.dropWhile_cons_of_pos hc]
    exact (List.dropWhile_sublist _).length_le
  rw [wordRunsF_congr rest.length (List.dropWhile isWordChar (c :: rest)).length _ hD
    le_rfl]
  rfl

theorem wordRuns_cons_nonword {c : Char} (rest : List Char) (hc : isWordChar c = false) :
    wordRuns (c :: rest) = wordRuns rest := by
  show wordRunsF (rest.length + 1) (c :: rest) = _
  simp only [wordRunsF]
  rw [if_neg (by simp [hc])]
  rfl

theorem boundary_false_left (b : Bool) : boundary false b = b := by cases b <;> rfl

theorem boundary_true_left (b : Bool) : boundary true b = !b := by cases b <;> rfl

/-- Main characterization, by strong induction on the text length: for a
nonempty key of word characters, the scanner started in a non-word context
computes the token-level substitution, and started in a word context it first
copies the remainder of the current run. -/
theorem scan_eq_tokSubst_bounded (k r : List Char) (hk : k ≠ [])
    (hw : ∀ c ∈ k, isWordChar c = true) :
    ∀ n : Nat, ∀ s : List Char, s.length ≤ n →
      (scan (k.map RChar.lit) r false 0 s = tokSubst k r s ∧
       scan (k.map RChar.lit) r true 0 s =
         List.takeWhile isWordChar s ++ tokSubst k r (List.dropWhile isWordChar s)) := by
  have hpe : (k.map RChar.lit).isEmpty = false := by
    cases k
    · exact absurd rfl hk
    · rfl
  intro n
  induction n with
  | zero =>
    intro s hs
    have hsnil : s = [] := by
      cases s
      · rfl
      · simp at hs
    subst hsnil
    rw [scan_zero_nil, scan_zero_nil, hpe]
    simp [tokSubst_nil]
  | succ n ih =>
    intro s hs
    cases s with
    | nil =>
      rw [scan_zero_nil, scan_zero_nil, hpe]
      simp [tokSubst_nil]
    | cons c rest =>
      have hrest : rest.length ≤ n := by simpa using hs
      by_cases hc : isWordChar c = true
      · constructor
        · -- part A at a word character: candidate match site
          rw [scan_zero_cons, hc, boundary_false_left, if_pos rfl]
          rcases hm : matchPat (k.map RChar.lit) false (c :: rest) with _ | ⟨w', rest'⟩
          · -- no match: the run is not the key; it is copied whole
            dsimp only
            have hciRun : ciEq (List.takeWhile isWordChar (c :: rest)) k = false := by
              by_contra hciT
              rw [Bool.not_eq_false] at hciT
              have hcomp := matchPat_lit_complete hciT false
                (List.dropWhile isWordChar (c :: rest))
              rw [List.takeWhile_append_dropWhile, hm] at hcomp
              exact absurd hcomp (by simp)
            rw [tokSubst_cons_word k r rest hc,
              if_neg (by rw [hciRun]; exact Bool.false_ne_true)]
            rw [(ih rest hrest).2, List.takeWhile_cons_of_pos hc,
              List.dropWhile_cons_of_pos hc]
            rfl
          · -- a match: analyse whether the closing boundary holds
            dsimp only
            obtain ⟨p, hsplit, hci, hwEq⟩ := matchPat_lit_sound hm
            have hpne : p ≠ [] := by
              intro h0
              subst h0
              have hlen := ciEq_length hci
              apply hk
              cases k
              · rfl
              · simp at hlen
            have hpw : ∀ x ∈ p, isWordChar x = true := allWord_of_ciEq hci hw
            have hw' : w' = true := by
              rw [hwEq]
              exact endW_allWord hpw hpne false
            by_cases hhead : headW rest' = true
            · -- the run continues past the key: boundary fails, no replacement
              have hciRun : ciEq (List.takeWhile isWordChar (c :: rest)) k = false := by
                by_contra hciT
                rw [Bool.not_eq_false] at hciT
                have hcomp := matchPat_lit_complete hciT false
                  (List.dropWhile isWordChar (c :: rest))
                rw [List.takeWhile_append_dropWhile, hm] at hcomp
                rw [Option.some.injEq, Prod.mk.injEq] at hcomp
                rw [hcomp.2, headW_dropWhile_word] at hhead
                exact Bool.false_ne_true hhead
              rw [hw', hhead, boundary_true_left, Bool.not_true,
                if_neg Bool.false_ne_true]
              rw [tokSubst_cons_word k r rest hc,
                if_neg (by rw [hciRun]; exact Bool.false_ne_true)]
              rw [(ih rest hrest).2, List.takeWhile_cons_of_pos hc,
                List.dropWhile_cons_of_pos hc]
              rfl
            · -- the key is exactly the maximal run: replace it
              rw [Bool.not_eq_true] at hhead
              have hT : List.takeWhile isWordChar (c :: rest) = p := by
                conv_lhs => rw [hsplit]
                exact takeWhile_word_append hpw hhead
              have hD : List.dropWhile isWordChar (c :: rest) = rest' := by
                conv_lhs => rw [hsplit]
                exact dropWhile_word_append hpw hhead
              rw [hw', hhead, boundary_true_left, Bool.not_false, if_pos rfl,
                if_neg (by rw [hpe]; exact Bool.false_ne_true)]
              rw [tokSubst_cons_word k r rest hc, hT, if_pos hci, hD]
              congr 1
              -- after skipping the matched characters the scan resumes at rest'
              cases p with
              | nil => exact absurd rfl hpne
              | cons c0 p' =>
                rw [List.cons_append] at hsplit
                injection hsplit with hceq hrestEq
                have hlenp : (k.map RChar.lit).length - 1 = p'.length := by
                  rw [List.length_map]
                  have hl := ciEq_length hci
                  simp only [List.length_cons] at hl
                  omega
                have hp'len : p'.length ≤ rest.length := by
                  rw [hrestEq]
                  simp
                rw [hlenp, scan_skip _ _ _ _ _ hp'len, hrestEq, List.take_left,
                  List.drop_left]
                have hrest'len : rest'.length ≤ n := by
                  rw [hrestEq] at hrest
                  simp only [List.length_append] at hrest
                  omega
                rcases hend : endW true p' with _ | _
                · exact (ih rest' hrest'len).1
                · rw [(ih rest' hrest'len).2]
                  cases rest' with
                  | nil => simp [tokSubst_nil]
                  | cons d t =>
                    have hd : isWordChar d = false := by simpa [headW] using hhead
                    rw [List.takeWhile_cons_of_neg (by simp [hd]),
                      List.dropWhile_cons_of_neg (by simp [hd])]
                    rfl
        · -- part B at a word character: mid-run, always copied
          rw [scan_zero_cons, hc, boundary_true_left, Bool.not_true,
            if_neg Bool.false_ne_true]
          rw [(ih rest hrest).2, List.takeWhile_cons_of_pos hc,
            List.dropWhile_cons_of_pos hc]
          rfl
      · -- non-word character: copied in both contexts
        rw [Bool.not_eq_true] at hc
        constructor
        · rw [scan_zero_cons, hc, boundary_false_left, if_neg Bool.false_ne_true]
          rw [tokSubst_cons_nonword k r rest hc, (ih rest hrest).1]
        · rw [scan_zero_cons, hc, boundary_true_left, Bool.not_false, if_pos rfl]
          have hmB : matchPat (k.map RChar.lit) true (c :: rest) = none := by
            cases k with
            | nil => exact absurd rfl hk
            | cons k0 k' =>
              have hk0 : isWordChar k0 = true := hw k0 (by simp)
              have hr : rmatch (RChar.lit k0) c = false := by
                by_contra hrT
                rw [Bool.not_eq_false] at hrT
                have hl : k0.toLower = c.toLower := by
                  simpa [rmatch] using hrT
                have hwc := isWordChar_eq_of_toLower_eq hl
                rw [hk0, hc] at hwc
                exact absurd hwc (by decide)
              simp [matchPat, hr]
          rw [hmB]
          dsimp only
          rw [List.takeWhile_cons_of_neg (by simp [hc]),
            List.dropWhile_cons_of_neg (by simp [hc]),
            tokSubst_cons_nonword k r rest hc, (ih rest hrest).1]
          rfl

/-- The full-text instance of the characterization. -/
theorem scan_eq_tokSubst (k r : List Char) (hk : k ≠ [])
    (hw : ∀ c ∈ k, isWordChar c = true) (s : List Char) :
    scan (k.map RChar.lit) r false 0 s = tokSubst k r s :=
  (scan_eq_tokSubst_bounded k r hk hw s.length s le_rfl).1

/-- A key made of word characters contains no regex metacharacter and no dot,
so it compiles to the literal pattern. -/
theorem compileKey_word {k : List Char} (hw : ∀ c ∈ k, isWordChar c = true) :
    compileKey k = some (k.map RChar.lit) := by
  unfold compileKey
  rw [if_neg ?hmeta]
  case hmeta =>
    simp only [List.any_eq_true, not_exists]
    rintro x ⟨hx, hj⟩
    rw [jsMeta_eq_false_of_isWordChar (hw x hx)] at hj
    exact Bool.false_ne_true hj
  congr 1
  refine List.map_congr_left fun c hc => ?_
  have hcw := hw c hc
  have hdot : ¬ c = '.' := fun h0 => by
    subst h0
    exact absurd hcw (by decide)
  rw [if_neg hdot]

/-- For an entry with a nonempty word-character key and a dollar-free
replacement, the code's regex replace is the token-level substitution. -/
theorem applyEntry_eq_tokSubst {e : DictionaryEntry} (hne : e.word ≠ [])
    (hw : ∀ c ∈ e.word, isWordChar c = true)
    (hds : e.replacement.contains '$' = false) (t : List Char) :
    applyEntry t e = some (tokSubst e.word e.replacement t) := by
  unfold applyEntry
  rw [compileKey_word hw]
  dsimp only
  rw [if_neg (by rw [hds]; exact Bool.false_ne_true), scan_eq_tokSubst _ _ hne hw]

theorem applyDict_cons (e : DictionaryEntry) (dict : List DictionaryEntry)
    (t : List Char) :
    applyDict (e :: dict) t = (applyEntry t e).bind (applyDict dict) := by
  rcases he : applyEntry t e with _ | t'
  · simp [applyDict, List.foldlM, he]
  · simp [applyDict, List.foldlM, he]

/-- Under the word-key hypotheses the whole dictionary pass is the pure fold of
the token-level substitutions. -/
theorem applyDict_eq_tokFold {dict : List DictionaryEntry}
    (hk : ∀ e ∈ dict, e.word ≠ [] ∧ ∀ c ∈ e.word, isWordChar c = true)
    (hds : ∀ e ∈ dict, e.replacement.contains '$' = false) (t : List Char) :
    applyDict dict t = some (tokFold dict t) := by
  induction dict generalizing t with
  | nil => rfl
  | cons e tl ih =>
    rw [applyDict_cons,
      applyEntry_eq_tokSubst (hk e (by simp)).1 (hk e (by simp)).2 (hds e (by simp))]
    dsimp only [Option.bind]
    exact ih (fun e' he' => hk e' (by simp [he'])) (fun e' he' => hds e' (by simp [he'])) _

/-- A successful dictionary pass implies every replacement is dollar-free (an
entry with a dollar in its replacement is outside the modelled fragment and
would have made the pass undefined). -/
theorem applyDict_dollarFree {dict : List DictionaryEntry} {t out : List Char}
    (h : applyDict dict t = some out) :
    ∀ e ∈ dict, e.replacement.contains '$' = false := by
  induction dict generalizing t with
  | nil => simp
  | cons e tl ih =>
    rw [applyDict_cons] at h
    rcases he : applyEntry t e with _ | t'
    · rw [he] at h
      exact absurd h (by simp)
    · rw [he] at h
      intro e' he'
      rcases List.mem_cons.1 he' with rfl | htl
      · unfold applyEntry at he
        rcases hck : compileKey e'.word with _ | pat
        · rw [hck] at he
          exact absurd he (by simp)
        · rw [hck] at he
          dsimp only at he
          by_cases hd : e'.replacement.contains '$' = true
          · rw [if_pos hd] at he
            exact absurd he (by simp)
          · simpa using hd
      · exact ih (by simpa using h) e' htl

/-! ## Token-level structure lemmas -/

theorem headW_tokSubst {k r s : List Char} (h : headW s = false) :
    headW (tokSubst k r s) = false := by
  cases s with
  | nil => rw [tokSubst_nil]; rfl
  | cons c rest =>
    have hc : isWordChar c = false := by simpa [headW] using h
    rw [tokSubst_cons_nonword k r rest hc]
    simpa [headW] using hc

theorem takeWhile_append_headW {a b : List Char} (hb : headW b = false) :
    List.takeWhile isWordChar (a ++ b) = List.takeWhile isWordChar a := by
  induction a with
  | nil =>
    cases b with
    | nil => rfl
    | cons d t =>
      have hd : isWordChar d = false := by simpa [headW] using hb
      rw [List.nil_append, List.takeWhile_cons_of_neg (by simp [hd])]
      rfl
  | cons c a' ih =>
    by_cases hc : isWordChar c = true
    · rw [List.cons_append, List.takeWhile_cons_of_pos hc,
        List.takeWhile_cons_of_pos hc, ih]
    · rw [Bool.not_eq_true] at hc
      rw [List.cons_append, List.takeWhile_cons_of_neg (by simp [hc]),
        List.takeWhile_cons_of_neg (by simp [hc])]

theorem dropWhile_append_headW {a b : List Char} (hb : headW b = false) :
    List.dropWhile isWordChar (a ++ b) = List.dropWhile isWordChar a ++ b := by
  induction a with
  | nil =>
    cases b with
    | nil => rfl
    | cons d t =>
      have hd : isWordChar d = false := by simpa [headW] using hb
      rw [List.nil_append, List.dropWhile_cons_of_neg (by simp [hd])]
      rfl
  | cons c a' ih =>
    by_cases hc : isWordChar c = true
    · rw [List.cons_append, List.dropWhile_cons_of_pos hc,
        List.dropWhile_cons_of_pos hc, ih]
    · rw [Bool.not_eq_true] at hc
      rw [List.cons_append, List.dropWhile_cons_of_neg (by simp [hc]),
        List.dropWhile_cons_of_neg (by simp [hc])]
      rfl

/-- Splitting the token substitution at a junction whose right side starts with
a non-word character (so no run crosses the junction). -/
theorem tokSubst_append (k r : List Char) :
    ∀ n : Nat, ∀ a b : List Char, a.length ≤ n → headW b = false →
      tokSubst k r (a ++ b) = tokSubst k r a ++ tokSubst k r b := by
  intro n
  induction n with
  | zero =>
    intro a b ha _
    have hanil : a = [] := by
      cases a
      · rfl
      · simp at ha
    subst hanil
    rw [List.nil_append, tokSubst_nil, List.nil_append]
  | succ n ih =>
    intro a b ha hb
    cases a with
    | nil => rw [List.nil_append, tokSubst_nil, List.nil_append]
    | cons c a' =>
      by_cases hc : isWordChar c = true
      · rw [List.cons_append, tokSubst_cons_word k r (a' ++ b) hc,
          tokSubst_cons_word k r a' hc]
        rw [show (c :: (a' ++ b)) = (c :: a') ++ b from rfl] at *
        rw [takeWhile_append_headW hb, dropWhile_append_headW hb]
        rw [ih (List.dropWhile isWordChar (c :: a')) b ?dlen hb, List.append_assoc]
        case dlen =>
          rw [List.dropWhile_cons_of_pos hc]
          exact Nat.le_trans (List.dropWhile_sublist _).length_le (by simpa using ha)
      · rw [Bool.not_eq_true] at hc
        rw [List.cons_append, tokSubst_cons_nonword k r (a' ++ b) hc,
          tokSubst_cons_nonword k r a' hc,
          ih a' b (by simpa using ha) hb, List.cons_append]

/-- Splitting the word runs at such a junction. -/
theorem wordRuns_append :
    ∀ n : Nat, ∀ a b : List Char, a.length ≤ n → headW b = false →
      wordRuns (a ++ b) = wordRuns a ++ wordRuns b := by
  intro n
  induction n with
  | zero =>
    intro a b ha _
    have hanil : a = [] := by
      cases a
      · rfl
      · simp at ha
    subst hanil
    rw [List.nil_append, wordRuns_nil, List.nil_append]
  | succ n ih =>
    intro a b ha hb
    cases a with
    | nil => rw [List.nil_append, wordRuns_nil, List.nil_append]
    | cons c a' =>
      by_cases hc : isWordChar c = true
      · rw [List.cons_append, wordRuns_cons_word (a' ++ b) hc, wordRuns_cons_word a' hc]
        rw [show (c :: (a' ++ b)) = (c :: a') ++ b from rfl] at *
        rw [takeWhile_append_headW hb, dropWhile_append_headW hb]
        rw [ih (List.dropWhile isWordChar (c :: a')) b ?dlen hb, List.cons_append]
        case dlen =>
          rw [List.dropWhile_cons_of_pos hc]
          exact Nat.le_trans (List.dropWhile_sublist _).length_le (by simpa using ha)
      · rw [Bool.not_eq_true] at hc
        rw [List.cons_append, wordRuns_cons_nonword (a' ++ b) hc,
          wordRuns_cons_nonword a' hc, ih a' b (by simpa using ha) hb]

/-- The word runs of an all-word-character nonempty string: itself. -/
theorem wordRuns_allWord {p : List Char} (hp : ∀ c ∈ p, isWordChar c = true)
    (hne : p ≠ []) : wordRuns p = [p] := by
  cases p with
  | nil => exact absurd rfl hne
  | cons c p' =>
    have hT : List.takeWhile isWordChar (c :: p') = c :: p' := by
      have := takeWhile_word_append (t := []) hp rfl
      simpa using this
    have hD : List.dropWhile isWordChar (c :: p') = [] := by
      have := dropWhile_word_append (t := []) hp rfl
      simpa using this
    rw [wordRuns_cons_word p' (hp c (by simp)), hT, hD, wordRuns_nil]

/-- The token substitution of a single all-word-character run. -/
theorem tokSubst_allWord_run {p : List Char} (hp : ∀ c ∈ p, isWordChar c = true)
    (hne : p ≠ []) (k r : List Char) :
    tokSubst k r p = if ciEq p k then r else p := by
  cases p with
  | nil => exact absurd rfl hne
  | cons c p' =>
    have hT : List.takeWhile isWordChar (c :: p') = c :: p' := by
      have := takeWhile_word_append (t := []) hp rfl
      simpa using this
    have hD : List.dropWhile isWordChar (c :: p') = [] := by
      have := dropWhile_word_append (t := []) hp rfl
      simpa using this
    rw [tokSubst_cons_word k r p' (hp c (by simp)), hT, hD, tokSubst_nil,
      List.append_nil]

/-- Every word run of a substituted text is a run of the replacement or an
unreplaced (hence non-key) run of the original. -/
theorem wordRuns_tokSubst (k r : List Char) :
    ∀ n : Nat, ∀ s : List Char, s.length ≤ n →
      ∀ w ∈ wordRuns (tokSubst k r s),
        w ∈ wordRuns r ∨ (w ∈ wordRuns s ∧ ciEq w k = false) := by
  intro n
  induction n with
  | zero =>
    intro s hs
    have hsnil : s = [] := by
      cases s
      · rfl
      · simp at hs
    subst hsnil
    rw [tokSubst_nil, wordRuns_nil]
    simp
  | succ n ih =>
    intro s hs
    cases s with
    | nil =>
      rw [tokSubst_nil, wordRuns_nil]
      simp
    | cons c rest =>
      by_cases hc : isWordChar c = true
      · rw [tokSubst_cons_word k r rest hc]
        have hD : headW (List.dropWhile isWordChar (c :: rest)) = false :=
          headW_dropWhile_word _
        have hDtok : headW (tokSubst k r (List.dropWhile isWordChar (c :: rest))) = false :=
          headW_tokSubst hD
        have hDlen : (List.dropWhile isWordChar (c :: rest)).length ≤ n := by
          rw [List.dropWhile_cons_of_pos hc]
          exact Nat.le_trans (List.dropWhile_sublist _).length_le (by simpa using hs)
        have hrunsS : wordRuns (c :: rest) =
            List.takeWhile isWordChar (c :: rest) ::
              wordRuns (List.dropWhile isWordChar (c :: rest)) :=
          wordRuns_cons_word rest hc
        intro w hw'
        by_cases hci : ciEq (List.takeWhile isWordChar (c :: rest)) k = true
        · rw [if_pos hci, wordRuns_append r.length r _ le_rfl hDtok] at hw'
          rcases List.mem_append.1 hw' with hr | htokD
          · exact Or.inl hr
          · rcases ih _ hDlen w htokD with hr | ⟨hD', hne⟩
            · exact Or.inl hr
            · exact Or.inr ⟨by rw [hrunsS]; exact List.mem_cons_of_mem _ hD', hne⟩
        · rw [if_neg (by rw [Bool.not_eq_true] at hci; simp [hci]),
            wordRuns_append (List.takeWhile isWordChar (c :: rest)).length _ _ le_rfl
              hDtok] at hw'
          rcases List.mem_append.1 hw' with hT | htokD
          · have hTw : ∀ x ∈ List.takeWhile isWordChar (c :: rest), isWordChar x = true :=
              allWord_takeWhile _
            have hTne : List.takeWhile isWordChar (c :: rest) ≠ [] := by
              rw [List.takeWhile_cons_of_pos hc]
              simp
            rw [wordRuns_allWord hTw hTne, List.mem_singleton] at hT
            subst hT
            refine Or.inr ⟨by rw [hrunsS]; exact List.mem_cons_self _ _, ?_⟩
            rw [Bool.not_eq_true] at hci
            exact hci
          · rcases ih _ hDlen w htokD with hr | ⟨hD', hne⟩
            · exact Or.inl hr
            · exact Or.inr ⟨by rw [hrunsS]; exact List.mem_cons_of_mem _ hD', hne⟩
      · rw [Bool.not_eq_true] at hc
        rw [tokSubst_cons_nonword k r rest hc]
        intro w hw'
        rw [wordRuns_cons_nonword _ hc] at hw'
        rcases ih rest (by simpa using hs) w hw' with hr | ⟨hs', hne⟩
        · exact Or.inl hr
        · refine Or.inr ⟨?_, hne⟩
          rw [wordRuns_cons_nonword _ hc]
          exact hs'

/-- A text none of whose word runs equals the key is left unchanged. -/
theorem tokSubst_id (k r : List Char) :
    ∀ n : Nat, ∀ s : List Char, s.length ≤ n →
      (∀ w ∈ wordRuns s, ciEq w k = false) → tokSubst k r s = s := by
  intro n
  induction n with
  | zero =>
    intro s hs _
    have hsnil : s = [] := by
      cases s
      · rfl
      · simp at hs
    subst hsnil
    exact tokSubst_nil k r
  | succ n ih =>
    intro s hs hruns
    cases s with
    | nil => exact tokSubst_nil k r
    | cons c rest =>
      by_cases hc : isWordChar c = true
      · have hrunsS := wordRuns_cons_word rest hc
        have hT : ciEq (List.takeWhile isWordChar (c :: rest)) k = false :=
          hruns _ (by rw [hrunsS]; exact List.mem_cons_self _ _)
        rw [tokSubst_cons_word k r rest hc, if_neg (by simp [hT])]
        have hDlen : (List.dropWhile isWordChar (c :: rest)).length ≤ n := by
          rw [List.dropWhile_cons_of_pos hc]
          exact Nat.le_trans (List.dropWhile_sublist _).length_le (by simpa using hs)
        rw [ih _ hDlen (fun w hw' => hruns w (by rw [hrunsS]; exact List.mem_cons_of_mem _ hw')),
          List.takeWhile_append_dropWhile]
      · rw [Bool.not_eq_true] at hc
        rw [tokSubst_cons_nonword k r rest hc,
          ih rest (by simpa using hs)
            (fun w hw' => hruns w (by rw [wordRuns_cons_nonword _ hc]; exact hw'))]

theorem ciEq_symm_false {a b : List Char} (h : ciEq a b = false) :
    ciEq b a = false := by
  rw [← Bool.not_eq_true, ciEq_iff] at h ⊢
  exact fun hEq => h hEq.symm

theorem ciEq_false_of_ciEq_of_ciEq_false {w k1 k2 : List Char}
    (h1 : ciEq w k1 = true) (h12 : ciEq k1 k2 = false) : ciEq w k2 = false := by
  rw [ciEq_iff] at h1
  rw [← Bool.not_eq_true, ciEq_iff] at h12 ⊢
  exact fun hEq => h12 (h1 ▸ hEq)

/-- Two entries with distinct word-character keys, whose replacements contain
no run equal to either key, commute. -/
theorem tokSubst_comm (k1 r1 k2 r2 : List Char)
    (hk1 : k1 ≠ []) (hw1 : ∀ c ∈ k1, isWordChar c = true)
    (hk2 : k2 ≠ []) (hw2 : ∀ c ∈ k2, isWordChar c = true)
    (hne : ciEq k1 k2 = false)
    (h12 : ∀ w ∈ wordRuns r1, ciEq w k2 = false)
    (h21 : ∀ w ∈ wordRuns r2, ciEq w k1 = false) :
    ∀ n : Nat, ∀ s : List Char, s.length ≤ n →
      tokSubst k1 r1 (tokSubst k2 r2 s) = tokSubst k2 r2 (tokSubst k1 r1 s) := by
  intro n
  induction n with
  | zero =>
    intro s hs
    have hsnil : s = [] := by
      cases s
      · rfl
      · simp at hs
    subst hsnil
    simp only [tokSubst_nil]
  | succ n ih =>
    intro s hs
    cases s with
    | nil => simp only [tokSubst_nil]
    | cons c rest =>
      by_cases hc : isWordChar c = true
      · have hT := List.takeWhile_cons_of_pos (p := isWordChar) (l := rest) hc
        have hTal : ∀ x ∈ List.takeWhile isWordChar (c :: rest), isWordChar x = true :=
          allWord_takeWhile _
        have hTne : List.takeWhile isWordChar (c :: rest) ≠ [] := by
          rw [hT]
          simp
        have hD : headW (List.dropWhile isWordChar (c :: rest)) = false :=
          headW_dropWhile_word _
        have hDlen : (List.dropWhile isWordChar (c :: rest)).length ≤ n := by
          rw [List.dropWhile_cons_of_pos hc]
          exact Nat.le_trans (List.dropWhile_sublist _).length_le (by simpa using hs)
        set T := List.takeWhile isWordChar (c :: rest) with hTdef
        set D := List.dropWhile isWordChar (c :: rest) with hDdef
        rw [tokSubst_cons_word k2 r2 rest hc, tokSubst_cons_word k1 r1 rest hc,
          ← hTdef, ← hDdef]
        by_cases h2 : ciEq T k2 = true
        · have h1 : ciEq T k1 = false := by
            have := ciEq_symm_false hne
            exact ciEq_false_of_ciEq_of_ciEq_false h2 this
          rw [if_pos h2, if_neg (by simp [h1])]
          rw [tokSubst_append k1 r1 r2.length r2 _ le_rfl (headW_tokSubst hD)]
          rw [tokSubst_append k2 r2 T.length T _ le_rfl (headW_tokSubst hD)]
          rw [tokSubst_id k1 r1 r2.length r2 le_rfl h21]
          rw [tokSubst_allWord_run hTal hTne, if_pos h2]
          rw [ih D hDlen]
        · have h2f : ciEq T k2 = false := by
            rw [Bool.not_eq_true] at h2
            exact h2
          by_cases h1 : ciEq T k1 = true
          · rw [if_neg (by simp [h2f]), if_pos h1]
            rw [tokSubst_append k1 r1 T.length T _ le_rfl (headW_tokSubst hD)]
            rw [tokSubst_append k2 r2 r1.length r1 _ le_rfl (headW_tokSubst hD)]
            rw [tokSubst_id k2 r2 r1.length r1 le_rfl h12]
            rw [tokSubst_allWord_run hTal hTne, if_pos h1]
            rw [ih D hDlen]
          · have h1f : ciEq T k1 = false := by
              rw [Bool.not_eq_true] at h1
              exact h1
            rw [if_neg (by simp [h2f]), if_neg (by simp [h1f])]
            rw [tokSubst_append k1 r1 T.length T _ le_rfl (headW_tokSubst hD)]
            rw [tokSubst_append k2 r2 T.length T _ le_rfl (headW_tokSubst hD)]
            rw [tokSubst_allWord_run hTal hTne, if_neg (by simp [h1f])]
            rw [tokSubst_allWord_run hTal hTne, if_neg (by simp [h2f])]
            rw [ih D hDlen]
      · rw [Bool.not_eq_true] at hc
        rw [tokSubst_cons_nonword k2 r2 rest hc, tokSubst_cons_nonword k1 r1 rest hc,
          tokSubst_cons_nonword k1 r1 _ hc, tokSubst_cons_nonword k2 r2 _ hc,
          ih rest (by simpa using hs)]

theorem tokFold_cons (e : DictionaryEntry) (tl : List DictionaryEntry)
    (t : List Char) :
    tokFold (e :: tl) t = tokFold tl (tokSubst e.word e.replacement t) := rfl

/-- A text with no run equal to the key keeps that property through any pass
whose replacements also avoid the key. -/
theorem tokFold_preserves_noRun {tl : List DictionaryEntry} {k : List Char}
    (hk : ∀ e' ∈ tl, ∀ w ∈ wordRuns e'.replacement, ciEq w k = false) :
    ∀ t : List Char, (∀ w ∈ wordRuns t, ciEq w k = false) →
      ∀ w ∈ wordRuns (tokFold tl t), ciEq w k = false := by
  induction tl with
  | nil => exact fun t ht => ht
  | cons e1 tl1 ih =>
    intro t ht w hw'
    rw [tokFold_cons] at hw'
    refine ih (fun e' he' => hk e' (by simp [he'])) _ ?_ w hw'
    intro w' hw''
    rcases wordRuns_tokSubst e1.word e1.replacement t.length t le_rfl w' hw'' with
      hr | ⟨hs', _⟩
    · exact hk e1 (by simp) w' hr
    · exact ht w' hs'

/-- After one full dictionary pass no word run equals any key. -/
theorem tokFold_noKeyRun {dict : List DictionaryEntry}
    (hrepl : ∀ e ∈ dict, ∀ e' ∈ dict, ∀ w ∈ wordRuns e'.replacement,
      ciEq w e.word = false) (s : List Char) :
    ∀ e ∈ dict, ∀ w ∈ wordRuns (tokFold dict s), ciEq w e.word = false := by
  induction dict generalizing s with
  | nil => simp
  | cons e0 tl ih =>
    intro e he w hw'
    rw [tokFold_cons] at hw'
    rcases List.mem_cons.1 he with rfl | htl
    · have hbase : ∀ w ∈ wordRuns (tokSubst e.word e.replacement s),
          ciEq w e.word = false := by
        intro w' hw''
        rcases wordRuns_tokSubst e.word e.replacement s.length s le_rfl w' hw'' with
          hr | ⟨_, hne⟩
        · exact hrepl e (by simp) e (by simp) w' hr
        · exact hne
      exact tokFold_preserves_noRun
        (fun e' he' w' hw'' => hrepl e (by simp) e' (by simp [he']) w' hw'')
        _ hbase w hw'
    · exact ih
        (fun a ha b hb => hrepl a (by simp [ha]) b (by simp [hb])) _ e htl w hw'

/-- A full pass on a text with no key run anywhere is the identity. -/
theorem tokFold_id {dict : List DictionaryEntry} :
    ∀ t : List Char, (∀ e ∈ dict, ∀ w ∈ wordRuns t, ciEq w e.word = false) →
      tokFold dict t = t := by
  induction dict with
  | nil => exact fun t _ => rfl
  | cons e tl ih =>
    intro t ht
    rw [tokFold_cons, tokSubst_id e.word e.replacement t.length t le_rfl (ht e (by simp))]
    exact ih t fun e' he' => ht e' (by simp [he'])

/-! ## The amended substitution properties -/

/-- C3 (amended): for every dictionary whose keys are nonempty and consist of
word characters only, and whose replacements contain no whole word equal to any
key case-insensitively, the substitution transform is idempotent: whenever the
pass maps `text` to `out`, it maps `out` to `out` again. -/
theorem substitution_idempotent
    (dict : List DictionaryEntry) (text out : List Char)
    (hkeys : ∀ e ∈ dict, e.word ≠ [] ∧ ∀ c ∈ e.word, isWordChar c = true)
    (hrepl : ∀ e ∈ dict, ∀ e' ∈ dict, ∀ w ∈ wordRuns e'.replacement,
      ciEq w e.word = false)
    (h : applyDict dict text = some out) :
    applyDict dict out = some out := by
  have hds := applyDict_dollarFree h
  have h1 := applyDict_eq_tokFold hkeys hds text
  rw [h] at h1
  have hout : out = tokFold dict text := Option.some.inj h1
  rw [applyDict_eq_tokFold hkeys hds out]
  congr 1
  have hnoRun : ∀ e ∈ dict, ∀ w ∈ wordRuns out, ciEq w e.word = false := by
    rw [hout]
    exact tokFold_noKeyRun hrepl text
  exact tokFold_id out fun e he w hw' => hnoRun e he w hw'

/-- Witness for C3 at the gonna dictionary: one pass sends
"im gonna go" to "im going to go", and the theorem applied there shows the
second pass is the identity. -/
theorem substitution_idempotent_witness :
    applyDict [⟨"gonna".data, "going to".data⟩] "im going to go".data =
      some "im going to go".data :=
  substitution_idempotent [⟨"gonna".data, "going to".data⟩] "im gonna go".data
    "im going to go".data (by decide) (by decide) (by decide)

/-- Permutation invariance of the pure fold under the amended hypotheses. -/
theorem tokFold_perm {dict dict' : List DictionaryEntry}
    (hperm : dict.Perm dict')
    (hkeys : ∀ e ∈ dict, e.word ≠ [] ∧ ∀ c ∈ e.word, isWordChar c = true)
    (hdist : (dict.map fun e => e.word.map Char.toLower).Nodup)
    (hrepl : ∀ e ∈ dict, ∀ e' ∈ dict, ∀ w ∈ wordRuns e'.replacement,
      ciEq w e.word = false)
    (s : List Char) : tokFold dict s = tokFold dict' s := by
  refine hperm.foldl_eq' ?_ s
  intro x hx y hy z
  rcases eq_or_ne x y with rfl | hxy
  · rfl
  · have hk : ¬ ((fun e : DictionaryEntry => e.word.map Char.toLower) x =
        (fun e : DictionaryEntry => e.word.map Char.toLower) y) := by
      intro hEq
      exact hxy (List.inj_on_of_nodup_map hdist hx hy hEq)
    have hci : ciEq y.word x.word = false := by
      rw [← Bool.not_eq_true, ciEq_iff]
      exact fun hEq => hk hEq.symm
    exact tokSubst_comm y.word y.replacement x.word x.replacement
      (hkeys y hy).1 (hkeys y hy).2 (hkeys x hx).1 (hkeys x hx).2 hci
      (hrepl x hx y hy) (hrepl y hy x hx) z.length z le_rfl

/-- C4 (amended): for every dictionary whose keys are nonempty single words of
word characters, pairwise distinct case-insensitively, and whose replacements
contain no whole word equal to any key, the substitution is order-independent
(any permutation of the dictionary yields the same output); moreover the
substituted text of a pipeline run is exactly the dictionary pass over the raw
transcript and is embedded verbatim in the correction prompt.  -/
theorem substitution_order_independent
    (dict dict' : List DictionaryEntry) (text out : List Char)
    (env : Env) (notes : List VoiceNote) (chunks : List Blob) (dur : Int)
    (out2 : ProcOut)
    (hperm : dict.Perm dict')
    (hkeys : ∀ e ∈ dict, e.word ≠ [] ∧ ∀ c ∈ e.word, isWordChar c = true)
    (hdist : (dict.map fun e => e.word.map Char.toLower).Nodup)
    (hrepl : ∀ e ∈ dict, ∀ e' ∈ dict, ∀ w ∈ wordRuns e'.replacement,
      ciEq w e.word = false)
    (h : applyDict dict text = some out)
    (hp : processRecording env dict notes chunks dur = some out2) :
    applyDict dict' text = some out ∧
    out2.processedText = out2.rawTranscript.bind (fun rt => applyDict dict rt.data) ∧
    out2.promptSent = out2.processedText.map (fun p => mkPrompt (String.mk p)) := by
  have hds := applyDict_dollarFree h
  have hkeys' : ∀ e ∈ dict', e.word ≠ [] ∧ ∀ c ∈ e.word, isWordChar c = true :=
    fun e he => hkeys e (hperm.mem_iff.2 he)
  have hds' : ∀ e ∈ dict', e.replacement.contains '$' = false :=
    fun e he => hds e (hperm.mem_iff.2 he)
  refine ⟨?_, ?_, ?_⟩
  · rw [applyDict_eq_tokFold hkeys' hds' text, ← tokFold_perm hperm hkeys hdist hrepl,
      ← applyDict_eq_tokFold hkeys hds text]
    exact h
  · unfold processRecording at hp
    split at hp
    · rw [Option.some.injEq] at hp; subst hp; rfl
    · split at hp
      · rw [Option.some.injEq] at hp; subst hp; rfl
      · split at hp
        · rw [Option.some.injEq] at hp; subst hp; rfl
        · split at hp
          · rw [Option.some.injEq] at hp; subst hp; rfl
          · split at hp
            · exact absurd hp (by simp)
            · next heq =>
              split at hp
              · rw [Option.some.injEq] at hp; subst hp
                simpa using heq.symm
              · split at hp
                · rw [Option.some.injEq] at hp; subst hp
                  simpa using heq.symm
                · rw [Option.some.injEq] at hp; subst hp
                  simpa using heq.symm
  · unfold processRecording at hp
    split at hp
    · rw [Option.some.injEq] at hp; subst hp; rfl
    · split at hp
      · rw [Option.some.injEq] at hp; subst hp; rfl
      · split at hp
        · rw [Option.some.injEq] at hp; subst hp; rfl
        · split at hp
          · rw [Option.some.injEq] at hp; subst hp; rfl
          · split at hp
            · exact absurd hp (by simp)
            · split at hp
              · rw [Option.some.injEq] at hp; subst hp; rfl
              · split at hp
                · rw [Option.some.injEq] at hp; subst hp; rfl
                · rw [Option.some.injEq] at hp; subst hp; rfl

/-- The output of a fully successful run of `envAllOk` on one nonempty chunk
with the gonna/wanna dictionary. -/
def outAllOkDict : ProcOut :=
  ⟨.ok ⟨"5", "ok", "im gonna go", 5, 0⟩,
   [.encodeBase64, .transcribe, .generateText, .storeCreate],
   [⟨"5", "ok", "im gonna go", 5, 0⟩], false, some "ok",
   some "im gonna go", some "im going to go".data, some (mkPrompt "im going to go")⟩

/-- Witness for C4 at the two-entry gonna/wanna dictionary, its reversal, and a
concrete successful pipeline run. -/
theorem substitution_order_independent_witness :
    applyDict [⟨"wanna".data, "want to".data⟩, ⟨"gonna".data, "going to".data⟩]
      "im gonna go".data = some "im going to go".data ∧
    outAllOkDict.processedText =
      outAllOkDict.rawTranscript.bind (fun rt => applyDict dictTwo rt.data) ∧
    outAllOkDict.promptSent =
      outAllOkDict.processedText.map (fun p => mkPrompt (String.mk p)) :=
  substitution_order_independent dictTwo
    [⟨"wanna".data, "want to".data⟩, ⟨"gonna".data, "going to".data⟩]
    "im gonna go".data "im going to go".data envAllOk [] [[1, 2, 3]] 0 outAllOkDict
    (by decide) (by decide) (by decide) (by decide) (by decide) (by decide)

end VoiceNotes
